import Mathlib

/-!
Verification of the run-length CTC kernel interface declared in
`src/taiyaki/ctc/c_crf_runlength.h`.

The repository provides only the C declarations of the two entry points,

  void crf_runlength_cost(float const * logprob, size_t nstate, size_t nblk, size_t nbatch,
                          int32_t const * seqs, int32_t const * rles, int32_t const * seqlen,
                          float * score);
  void crf_runlength_grad(..., float * score, float * grad);

with no implementation body.  The kernel semantics below are therefore
modelled from the specification: a run-length-constrained CTC forward
dynamic program over a `nblk × nbatch × nstate` log-probability lattice.
Per the specification, a batch element's target is a sequence of symbol ids
with one explicit run length per symbol; an alignment holds each symbol for
exactly its prescribed count of consecutive timesteps and then moves to the
next symbol, so that the runs tile the `nblk` timesteps; the score of the
element is the log-sum-exp over all valid alignments of the summed
log-probabilities, and impossible elements score negative infinity
(modelled as `⊥ : EReal`).  Floating-point `float` values are modelled as
real numbers; the flat row-major buffers are modelled as total functions
indexed by (timestep, batch, state) and (batch, position).
-/

namespace Taiyaki

/-- Base C types occurring in the header `c_crf_runlength.h`. -/
inductive CBase where
  | float
  | int32T
  | sizeT
  | voidT
  deriving DecidableEq, Repr

/-- One formal parameter of a declared C function: its name, base type,
whether it is a pointer, and whether the pointee is `const`. -/
structure CParam where
  pname : String
  base : CBase
  ptr : Bool
  isConst : Bool
  deriving DecidableEq, Repr

/-- A declared C function signature: name, return type, parameter list. -/
structure CFunDecl where
  fname : String
  ret : CBase
  params : List CParam
  deriving DecidableEq, Repr

/-- The declaration of `crf_runlength_cost`, line 6-7 of the header. -/
def crf_runlength_cost_decl : CFunDecl :=
  { fname := "crf_runlength_cost"
    ret := CBase.voidT
    params :=
      [ { pname := "logprob", base := CBase.float, ptr := true, isConst := true }
      , { pname := "nstate", base := CBase.sizeT, ptr := false, isConst := false }
      , { pname := "nblk", base := CBase.sizeT, ptr := false, isConst := false }
      , { pname := "nbatch", base := CBase.sizeT, ptr := false, isConst := false }
      , { pname := "seqs", base := CBase.int32T, ptr := true, isConst := true }
      , { pname := "rles", base := CBase.int32T, ptr := true, isConst := true }
      , { pname := "seqlen", base := CBase.int32T, ptr := true, isConst := true }
      , { pname := "score", base := CBase.float, ptr := true, isConst := false } ] }

/-- The declaration of `crf_runlength_grad`, line 3-4 of the header. -/
def crf_runlength_grad_decl : CFunDecl :=
  { fname := "crf_runlength_grad"
    ret := CBase.voidT
    params :=
      [ { pname := "logprob", base := CBase.float, ptr := true, isConst := true }
      , { pname := "nstate", base := CBase.sizeT, ptr := false, isConst := false }
      , { pname := "nblk", base := CBase.sizeT, ptr := false, isConst := false }
      , { pname := "nbatch", base := CBase.sizeT, ptr := false, isConst := false }
      , { pname := "seqs", base := CBase.int32T, ptr := true, isConst := true }
      , { pname := "rles", base := CBase.int32T, ptr := true, isConst := true }
      , { pname := "seqlen", base := CBase.int32T, ptr := true, isConst := true }
      , { pname := "score", base := CBase.float, ptr := true, isConst := false }
      , { pname := "grad", base := CBase.float, ptr := true, isConst := false } ] }

/-- The names of the writable (non-`const` pointer) parameters of a declared
C function, in declaration order: the only channels through which the
function can deliver any result. -/
def CFunDecl.outParams (d : CFunDecl) : List String :=
  (d.params.filter (fun p => p.ptr && !p.isConst)).map (fun p => p.pname)

/-- Modelled from the spec: one batch element's slice of the kernel inputs.
`logprob t st` is the log-probability of state `st` at timestep `t` (the
element's slice of the `nblk × nbatch × nstate` tensor); `seq i` and
`rle i` are the `int32` symbol id and run length at position `i` of the
element's target; `seqlen` is the `int32` count of valid positions. -/
structure RLElem where
  nstate : ℕ
  nblk : ℕ
  logprob : ℕ → ℕ → ℝ
  seq : ℕ → ℤ
  rle : ℕ → ℤ
  seqlen : ℤ

namespace RLElem

variable (e : RLElem)

/-- Number of valid target positions, as a natural number. -/
def L : ℕ := e.seqlen.toNat

/-- Run length at position `i`, as a natural number. -/
def r (i : ℕ) : ℕ := (e.rle i).toNat

/-- Symbol id at position `i`, as a natural number. -/
def sym (i : ℕ) : ℕ := (e.seq i).toNat

/-- Total number of timesteps occupied by the first `k` runs. -/
def psum (k : ℕ) : ℕ := ∑ i ∈ Finset.range k, e.r i

/-- Target position `j` is well formed: a positive run length and a symbol
id within `[0, nstate)`. -/
def okAt (j : ℕ) : Prop := 1 ≤ e.rle j ∧ 0 ≤ e.seq j ∧ e.seq j < (e.nstate : ℤ)

instance (j : ℕ) : Decidable (e.okAt j) := by
  unfold okAt
  infer_instance

/-- Modelled from the spec: the target sequence and its run lengths are
well formed — every valid position carries a positive run length and a
symbol id within `[0, nstate)`. -/
def SeqOK : Prop := ∀ i < e.L, e.okAt i

instance : Decidable e.SeqOK := by
  unfold SeqOK
  infer_instance

/-- Modelled from the spec: the target fits the lattice exactly — the run
lengths of the valid prefix sum to the number of timesteps. -/
def Fit : Prop := e.psum e.L = e.nblk

instance : Decidable e.Fit := by
  unfold Fit
  infer_instance

/-- Index of the run containing timestep `t`: the number of runs already
exhausted strictly before or at `t`. -/
def symIdx (t : ℕ) : ℕ :=
  ((Finset.range e.L).filter (fun j => e.psum (j + 1) ≤ t)).card

/-- The state forced at timestep `t` by the run-length tiling. -/
def fState (t : ℕ) : ℕ := e.sym (e.symIdx t)

/-- Modelled from the spec: an alignment assigns a state to every timestep;
it is valid when the element is well formed, the runs tile the lattice
exactly, and each run's timesteps all carry that run's symbol. -/
def ValidAlign (A : Fin e.nblk → Fin e.nstate) : Prop :=
  e.Fit ∧ e.SeqOK ∧
    ∀ i < e.L, ∀ t, ∀ ht : t < e.nblk,
      e.psum i ≤ t → t < e.psum (i + 1) → (A ⟨t, ht⟩ : ℕ) = e.sym i

instance (A : Fin e.nblk → Fin e.nstate) : Decidable (e.ValidAlign A) := by
  unfold ValidAlign
  infer_instance

/-- Weight of one alignment: the product over timesteps of the exponentiated
log-probability of the assigned state. -/
noncomputable def alignW (A : Fin e.nblk → Fin e.nstate) : ℝ :=
  ∏ t : Fin e.nblk, Real.exp (e.logprob t (A t))

/-- Modelled from the spec (reference semantics, following the spec's words):
the brute-force marginal — the sum of the weights of all valid alignments. -/
noncomputable def bruteW : ℝ :=
  ∑ A : Fin e.nblk → Fin e.nstate, if e.ValidAlign A then e.alignW A else 0

/-- Modelled from the spec (reference semantics): the log-sum-exp score — the
log of the brute-force marginal, negative infinity when it vanishes. -/
noncomputable def specScore : EReal :=
  if e.bruteW = 0 then (⊥ : EReal) else ((Real.log e.bruteW : ℝ) : EReal)

/-- Emission weight of run `i`: product of the exponentiated
log-probabilities of symbol `i` over the run's timesteps. -/
noncomputable def runW (i : ℕ) : ℝ :=
  ∏ t ∈ Finset.Ico (e.psum i) (e.psum (i + 1)), Real.exp (e.logprob t (e.sym i))

/-- Modelled from the spec: the forward dynamic program in the probability
domain.  `fwd j` is the total weight after consuming the first `j` runs;
each step checks the position's run length and symbol id and multiplies in
the run's emission weight, collapsing to the zero floor on a violation. -/
noncomputable def fwd (e : RLElem) : ℕ → ℝ
  | 0 => 1
  | j + 1 => if e.okAt j then fwd e j * e.runW j else 0

/-- Modelled from the spec: the element's total alignment weight computed by
the forward dynamic program — zero when the runs do not tile the lattice. -/
noncomputable def weight : ℝ := if e.Fit then e.fwd e.L else 0

/-- Modelled from the spec: the element's score — the log of the forward
dynamic program's weight, negative infinity when the weight vanishes. -/
noncomputable def score : EReal :=
  if e.weight = 0 then (⊥ : EReal) else ((Real.log e.weight : ℝ) : EReal)

/-- Sum of the log-probabilities along the forced run-length path: the real
value of a well-formed, fitting element's score. -/
noncomputable def pathScore : ℝ :=
  ∑ t ∈ Finset.range e.nblk, e.logprob t (e.fState t)

/-- Modelled from the spec: the gradient of the element's score with respect
to the log-probability of lattice cell `(t, st)` — the posterior occupancy
of the cell, which for the exact run-length tiling is the indicator that the
cell lies on the forced path of a well-formed, fitting element. -/
def gradCell (t st : ℕ) : ℝ :=
  if e.Fit ∧ e.SeqOK ∧ t < e.nblk ∧ e.fState t = st then 1 else 0

/-- A lattice cell is reachable when some valid alignment passes through it. -/
def Reachable (t st : ℕ) : Prop :=
  ∃ A : Fin e.nblk → Fin e.nstate,
    e.ValidAlign A ∧ ∃ ht : t < e.nblk, (A ⟨t, ht⟩ : ℕ) = st

instance (t st : ℕ) : Decidable (e.Reachable t st) := by
  unfold Reachable
  infer_instance

end RLElem

/-- Modelled from the spec: the batched kernel inputs.  `logprob t b st`
models the row-major `nblk × nbatch × nstate` tensor entry for timestep
`t`, batch element `b`, state `st`; `seqs b i` and `rles b i` model batch
element `b`'s target symbol and run length at position `i`; `seqlen b` its
valid length. -/
structure RLBatch where
  nstate : ℕ
  nblk : ℕ
  nbatch : ℕ
  logprob : ℕ → ℕ → ℕ → ℝ
  seqs : ℕ → ℕ → ℤ
  rles : ℕ → ℕ → ℤ
  seqlen : ℕ → ℤ

namespace RLBatch

variable (B : RLBatch)

/-- Batch element `b`'s slice of the batched inputs. -/
def slice (b : ℕ) : RLElem :=
  { nstate := B.nstate
    nblk := B.nblk
    logprob := fun t st => B.logprob t b st
    seq := B.seqs b
    rle := B.rles b
    seqlen := B.seqlen b }

/-- The batch with its elements reindexed through `π`: element `b` of the
result carries the inputs of element `π b` of the original. -/
def permute (π : ℕ → ℕ) : RLBatch :=
  { nstate := B.nstate
    nblk := B.nblk
    nbatch := B.nbatch
    logprob := fun t b st => B.logprob t (π b) st
    seqs := fun b => B.seqs (π b)
    rles := fun b => B.rles (π b)
    seqlen := fun b => B.seqlen (π b) }

/-- The batch with the log-probability of the single lattice cell
`(t, b, st)` shifted by `h`: the input of a one-cell finite difference. -/
def perturb (t b st : ℕ) (h : ℝ) : RLBatch :=
  { B with
    logprob := fun t2 b2 st2 =>
      if t2 = t ∧ b2 = b ∧ st2 = st then B.logprob t2 b2 st2 + h
      else B.logprob t2 b2 st2 }

end RLBatch

/-- Modelled from the spec: `crf_runlength_cost`.  Given the batched inputs
and the prior contents of the caller-allocated `score` buffer, it returns
the new buffer contents: every in-range entry is overwritten with the
element's forward score, and the inputs are untouched (the model is a pure
function of the input batch). -/
noncomputable def crf_runlength_cost (B : RLBatch) (scorePrev : ℕ → EReal) :
    ℕ → EReal :=
  fun b => if b < B.nbatch then (B.slice b).score else scorePrev b

/-- Modelled from the spec: `crf_runlength_grad`.  Given the batched inputs
and the prior contents of the caller-allocated `score` and `grad` buffers,
it returns the new contents of both: the same forward score as
`crf_runlength_cost`, and the gradient of each element's score with respect
to each in-range lattice cell `(t, b, st)`, every in-range entry fully
overwritten. -/
noncomputable def crf_runlength_grad (B : RLBatch) (scorePrev : ℕ → EReal)
    (gradPrev : ℕ → ℕ → ℕ → ℝ) : (ℕ → EReal) × (ℕ → ℕ → ℕ → ℝ) :=
  ( fun b => if b < B.nbatch then (B.slice b).score else scorePrev b
  , fun t b st =>
      if t < B.nblk ∧ b < B.nbatch ∧ st < B.nstate then
        (B.slice b).gradCell t st
      else gradPrev t b st )

/-- All-zero prior contents for the `score` buffer. -/
noncomputable def spZero : ℕ → EReal := fun _ => 0

/-- Prior `score` buffer filled with negative infinity. -/
noncomputable def spBot : ℕ → EReal := fun _ => ⊥

/-- All-zero prior contents for the `grad` buffer. -/
noncomputable def gpZero : ℕ → ℕ → ℕ → ℝ := fun _ _ _ => 0

/-- Prior `grad` buffer filled with ones. -/
noncomputable def gpOne : ℕ → ℕ → ℕ → ℝ := fun _ _ _ => 1

/-- A small well-formed batch: one element, three timesteps, two states,
target `[0, 1]` with run lengths `[1, 2]`. -/
noncomputable def Bdemo : RLBatch :=
  { nstate := 2
    nblk := 3
    nbatch := 1
    logprob := fun _ _ _ => 0
    seqs := fun _ i => if i = 0 then 0 else 1
    rles := fun _ i => if i = 0 then 1 else 2
    seqlen := fun _ => 2 }

/-- A degenerate batch: the single element's run length 2 cannot fit the
single timestep. -/
noncomputable def Bbad : RLBatch :=
  { nstate := 1
    nblk := 1
    nbatch := 1
    logprob := fun _ _ _ => 0
    seqs := fun _ _ => 0
    rles := fun _ _ => 2
    seqlen := fun _ => 1 }

/-- A single-cell batch: one timestep, one state, target `[0]` with run
length `[1]`, log-probability `5` in the unique cell. -/
noncomputable def Bone : RLBatch :=
  { nstate := 1
    nblk := 1
    nbatch := 1
    logprob := fun _ _ _ => 5
    seqs := fun _ _ => 0
    rles := fun _ _ => 1
    seqlen := fun _ => 1 }

namespace RLElem

variable (e : RLElem)

theorem psum_zero : e.psum 0 = 0 := by
  simp [psum]

theorem psum_succ (k : ℕ) : e.psum (k + 1) = e.psum k + e.r k :=
  Finset.sum_range_succ _ _

theorem psum_mono {a b : ℕ} (h : a ≤ b) : e.psum a ≤ e.psum b :=
  Finset.sum_le_sum_of_subset (Finset.range_subset.mpr h)

theorem symIdx_run {i t : ℕ} (hiL : i < e.L) (h1 : e.psum i ≤ t)
    (h2 : t < e.psum (i + 1)) : e.symIdx t = i := by
  have hset : (Finset.range e.L).filter (fun j => e.psum (j + 1) ≤ t)
      = Finset.range i := by
    ext j
    simp only [Finset.mem_filter, Finset.mem_range]
    constructor
    · rintro ⟨hjL, hj⟩
      by_contra hcon
      push_neg at hcon
      exact absurd (le_trans (e.psum_mono (Nat.succ_le_succ hcon)) hj)
        (not_le.mpr h2)
    · intro hji
      exact ⟨lt_trans hji hiL, le_trans (e.psum_mono hji) h1⟩
  unfold symIdx
  rw [hset, Finset.card_range]

theorem psum_cover (n t : ℕ) :
    t < e.psum n → ∃ i, i < n ∧ e.psum i ≤ t ∧ t < e.psum (i + 1) := by
  induction n with
  | zero =>
    intro ht
    rw [psum_zero] at ht
    exact absurd ht (Nat.not_lt_zero t)
  | succ n ih =>
    intro ht
    rcases lt_or_le t (e.psum n) with h | h
    · obtain ⟨i, hin, hi1, hi2⟩ := ih h
      exact ⟨i, Nat.lt_succ_of_lt hin, hi1, hi2⟩
    · exact ⟨n, Nat.lt_succ_self n, h, ht⟩

theorem fState_lt (hF : e.Fit) (hS : e.SeqOK) {t : ℕ} (ht : t < e.nblk) :
    e.fState t < e.nstate := by
  have hF' : e.psum e.L = e.nblk := hF
  have ht' : t < e.psum e.L := by rw [hF']; exact ht
  obtain ⟨i, hiL, h1, h2⟩ := e.psum_cover e.L t ht'
  have hsi := e.symIdx_run hiL h1 h2
  have hok := hS i hiL
  unfold okAt at hok
  obtain ⟨-, h0, hlt⟩ := hok
  unfold fState
  rw [hsi]
  unfold sym
  omega

theorem fwd_prod (n : ℕ) (h : ∀ j < n, e.okAt j) :
    e.fwd n = ∏ j ∈ Finset.range n, e.runW j := by
  induction n with
  | zero => simp [fwd]
  | succ n ih =>
    have hstep : e.fwd (n + 1) = if e.okAt n then e.fwd n * e.runW n else 0 := rfl
    rw [hstep, if_pos (h n (Nat.lt_succ_self n)),
      ih (fun j hj => h j (Nat.lt_succ_of_lt hj)), Finset.prod_range_succ]

theorem fwd_zero_of_bad (n : ℕ) (h : ∃ j, j < n ∧ ¬ e.okAt j) : e.fwd n = 0 := by
  induction n with
  | zero =>
    obtain ⟨j, hj, -⟩ := h
    exact absurd hj (Nat.not_lt_zero j)
  | succ n ih =>
    obtain ⟨j, hj, hbad⟩ := h
    have hstep : e.fwd (n + 1) = if e.okAt n then e.fwd n * e.runW n else 0 := rfl
    by_cases hn : e.okAt n
    · have hjn : j < n := by
        rcases Nat.lt_succ_iff_lt_or_eq.mp hj with h' | h'
        · exact h'
        · subst h'; exact absurd hn hbad
      rw [hstep, if_pos hn, ih ⟨j, hjn, hbad⟩, zero_mul]
    · rw [hstep, if_neg hn]

theorem prod_psum_split (g : ℕ → ℝ) (n : ℕ) :
    (∏ j ∈ Finset.range n, ∏ t ∈ Finset.Ico (e.psum j) (e.psum (j + 1)), g t)
      = ∏ t ∈ Finset.range (e.psum n), g t := by
  induction n with
  | zero => simp [psum_zero]
  | succ n ih =>
    rw [Finset.prod_range_succ, ih, Finset.range_eq_Ico]
    exact Finset.prod_Ico_consecutive g (Nat.zero_le _) (e.psum_mono (Nat.le_succ n))

theorem runW_forced (i : ℕ) (hiL : i < e.L) :
    e.runW i
      = ∏ t ∈ Finset.Ico (e.psum i) (e.psum (i + 1)),
          Real.exp (e.logprob t (e.fState t)) := by
  unfold runW
  refine Finset.prod_congr rfl fun t ht => ?_
  rw [Finset.mem_Ico] at ht
  unfold fState
  rw [e.symIdx_run hiL ht.1 ht.2]

theorem weight_eq_prod (hF : e.Fit) (hS : e.SeqOK) :
    e.weight = ∏ t ∈ Finset.range e.nblk, Real.exp (e.logprob t (e.fState t)) := by
  have hF' : e.psum e.L = e.nblk := hF
  unfold weight
  rw [if_pos hF, e.fwd_prod e.L hS]
  calc (∏ j ∈ Finset.range e.L, e.runW j)
      = ∏ j ∈ Finset.range e.L, ∏ t ∈ Finset.Ico (e.psum j) (e.psum (j + 1)),
          Real.exp (e.logprob t (e.fState t)) := by
        refine Finset.prod_congr rfl fun j hj => ?_
        exact e.runW_forced j (Finset.mem_range.mp hj)
    _ = ∏ t ∈ Finset.range (e.psum e.L),
          Real.exp (e.logprob t (e.fState t)) := e.prod_psum_split _ e.L
    _ = ∏ t ∈ Finset.range e.nblk,
          Real.exp (e.logprob t (e.fState t)) := by rw [hF']

theorem weight_pos (hF : e.Fit) (hS : e.SeqOK) : 0 < e.weight := by
  rw [e.weight_eq_prod hF hS]
  exact Finset.prod_pos fun t _ => Real.exp_pos _

theorem weight_eq_exp (hF : e.Fit) (hS : e.SeqOK) :
    e.weight = Real.exp e.pathScore := by
  rw [e.weight_eq_prod hF hS, pathScore, Real.exp_sum]

theorem score_eq_pathScore (hF : e.Fit) (hS : e.SeqOK) :
    e.score = ((e.pathScore : ℝ) : EReal) := by
  unfold score
  rw [e.weight_eq_exp hF hS, if_neg (Real.exp_pos _).ne', Real.log_exp]

theorem weight_eq_zero_of_invalid (h : ¬ (e.Fit ∧ e.SeqOK)) : e.weight = 0 := by
  unfold weight
  by_cases hF : e.Fit
  · rw [if_pos hF]
    apply e.fwd_zero_of_bad
    have hS : ¬ e.SeqOK := fun hS => h ⟨hF, hS⟩
    unfold SeqOK at hS
    push_neg at hS
    exact hS
  · rw [if_neg hF]

theorem score_eq_bot_of_invalid (h : ¬ (e.Fit ∧ e.SeqOK)) : e.score = ⊥ := by
  unfold score
  rw [e.weight_eq_zero_of_invalid h, if_pos rfl]

theorem validAlign_apply {A : Fin e.nblk → Fin e.nstate} (hA : e.ValidAlign A)
    (t : Fin e.nblk) : (A t : ℕ) = e.fState t := by
  obtain ⟨hF, hS, h3⟩ := hA
  have hF' : e.psum e.L = e.nblk := hF
  have ht : (t : ℕ) < e.psum e.L := by rw [hF']; exact t.isLt
  obtain ⟨i, hiL, h1, h2⟩ := e.psum_cover e.L t ht
  have h4 := h3 i hiL t t.isLt h1 h2
  unfold fState
  rw [e.symIdx_run hiL h1 h2]
  exact h4

theorem validAlign_of_forced (hF : e.Fit) (hS : e.SeqOK)
    (A : Fin e.nblk → Fin e.nstate)
    (hA : ∀ t : Fin e.nblk, (A t : ℕ) = e.fState t) : e.ValidAlign A := by
  refine ⟨hF, hS, fun i hiL t ht h1 h2 => ?_⟩
  rw [hA ⟨t, ht⟩]
  unfold fState
  rw [e.symIdx_run hiL h1 h2]

theorem bruteW_eq_weight : e.bruteW = e.weight := by
  by_cases hFS : e.Fit ∧ e.SeqOK
  · obtain ⟨hF, hS⟩ := hFS
    set A₀ : Fin e.nblk → Fin e.nstate :=
      fun t => ⟨e.fState t, e.fState_lt hF hS t.isLt⟩ with hA₀
    have hiff : ∀ A : Fin e.nblk → Fin e.nstate, e.ValidAlign A ↔ A = A₀ := by
      intro A
      constructor
      · intro hA
        funext t
        exact Fin.ext (e.validAlign_apply hA t)
      · rintro rfl
        exact e.validAlign_of_forced hF hS A₀ fun t => rfl
    unfold bruteW
    calc (∑ A : Fin e.nblk → Fin e.nstate, if e.ValidAlign A then e.alignW A else 0)
        = ∑ A : Fin e.nblk → Fin e.nstate, if A = A₀ then e.alignW A else 0 := by
          refine Finset.sum_congr rfl fun A _ => ?_
          rw [if_congr (hiff A) rfl rfl]
      _ = e.alignW A₀ := by
          rw [Finset.sum_ite_eq' Finset.univ A₀ e.alignW]
          simp
      _ = ∏ t : Fin e.nblk, Real.exp (e.logprob t (e.fState t)) := rfl
      _ = ∏ t ∈ Finset.range e.nblk, Real.exp (e.logprob t (e.fState t)) :=
          Fin.prod_univ_eq_prod_range
            (fun t => Real.exp (e.logprob t (e.fState t))) e.nblk
      _ = e.weight := (e.weight_eq_prod hF hS).symm
  · have hb : e.bruteW = 0 := by
      unfold bruteW
      refine Finset.sum_eq_zero fun A _ => ?_
      rw [if_neg]
      intro hA
      exact hFS ⟨hA.1, hA.2.1⟩
    rw [hb, e.weight_eq_zero_of_invalid hFS]

theorem score_eq_specScore : e.score = e.specScore := by
  unfold score specScore
  rw [e.bruteW_eq_weight]

end RLElem

/-- C1: for every batch element with a well-formed target sequence and run
lengths, the score written by `crf_runlength_cost` equals the log-sum-exp,
over the enumerable set of all valid run-length-constrained alignments of
that sequence to the `nblk`-timestep lattice, of each alignment's summed
log-probabilities: the forward dynamic program agrees with brute-force
marginalization. -/
theorem crf_runlength_cost_marginalizes (B : RLBatch) (sp : ℕ → EReal)
    (b : ℕ) (hb : b < B.nbatch) (hS : (B.slice b).SeqOK) :
    crf_runlength_cost B sp b = (B.slice b).specScore := by
  unfold crf_runlength_cost
  rw [if_pos hb]
  exact (B.slice b).score_eq_specScore

/-- Witness for C1 on the concrete batch `Bdemo`. -/
theorem crf_runlength_cost_marginalizes_witness :
    0 < Bdemo.nbatch ∧ (Bdemo.slice 0).SeqOK ∧
      crf_runlength_cost Bdemo spZero 0 = (Bdemo.slice 0).specScore :=
  ⟨by decide, by decide,
    crf_runlength_cost_marginalizes Bdemo spZero 0 (by decide) (by decide)⟩

/-- C2: for every valid input, the gradient written by `crf_runlength_grad`
at an in-range (timestep, batch, state) cell equals the finite-difference
quotient of `crf_runlength_cost`'s score under a perturbation of that
cell's log-probability — here exactly, for every nonzero step `h`, because
a valid element's score is affine in each cell's log-probability, which is
stronger than agreement within a 1e-3 relative tolerance. -/
theorem crf_runlength_grad_finite_difference (B : RLBatch) (sp : ℕ → EReal)
    (gp : ℕ → ℕ → ℕ → ℝ) (b t st : ℕ) (h : ℝ)
    (hb : b < B.nbatch) (ht : t < B.nblk) (hst : st < B.nstate)
    (hF : (B.slice b).Fit) (hS : (B.slice b).SeqOK) (hh : h ≠ 0) :
    ((crf_runlength_cost (B.perturb t b st h) sp b).toReal
        - (crf_runlength_cost B sp b).toReal) / h
      = (crf_runlength_grad B sp gp).2 t b st := by
  have hb2 : b < (B.perturb t b st h).nbatch := hb
  have hF2 : ((B.perturb t b st h).slice b).Fit := hF
  have hS2 : ((B.perturb t b st h).slice b).SeqOK := hS
  have hgrad : (crf_runlength_grad B sp gp).2 t b st = (B.slice b).gradCell t st := by
    show (if t < B.nblk ∧ b < B.nbatch ∧ st < B.nstate
        then (B.slice b).gradCell t st else gp t b st) = (B.slice b).gradCell t st
    rw [if_pos ⟨ht, hb, hst⟩]
  have hcost1 : crf_runlength_cost (B.perturb t b st h) sp b
      = ((B.perturb t b st h).slice b).score := by
    show (if b < (B.perturb t b st h).nbatch
        then ((B.perturb t b st h).slice b).score else sp b) = _
    rw [if_pos hb2]
  have hcost2 : crf_runlength_cost B sp b = (B.slice b).score := by
    show (if b < B.nbatch then (B.slice b).score else sp b) = _
    rw [if_pos hb]
  rw [hgrad, hcost1, hcost2,
    ((B.perturb t b st h).slice b).score_eq_pathScore hF2 hS2,
    (B.slice b).score_eq_pathScore hF hS, EReal.toReal_coe, EReal.toReal_coe]
  have hdiff : ((B.perturb t b st h).slice b).pathScore
      = (B.slice b).pathScore + (if (B.slice b).fState t = st then h else 0) := by
    show (∑ t2 ∈ Finset.range B.nblk,
        ((B.perturb t b st h).slice b).logprob t2
          (((B.perturb t b st h).slice b).fState t2))
      = (∑ t2 ∈ Finset.range B.nblk,
          (B.slice b).logprob t2 ((B.slice b).fState t2))
        + (if (B.slice b).fState t = st then h else 0)
    have hterm : ∀ t2 ∈ Finset.range B.nblk,
        ((B.perturb t b st h).slice b).logprob t2
            (((B.perturb t b st h).slice b).fState t2)
          = (B.slice b).logprob t2 ((B.slice b).fState t2)
            + (if t2 = t ∧ (B.slice b).fState t2 = st then h else 0) := by
      intro t2 _
      show (if t2 = t ∧ b = b ∧ (B.slice b).fState t2 = st
          then B.logprob t2 b ((B.slice b).fState t2) + h
          else B.logprob t2 b ((B.slice b).fState t2))
        = B.logprob t2 b ((B.slice b).fState t2)
            + (if t2 = t ∧ (B.slice b).fState t2 = st then h else 0)
      by_cases h1 : t2 = t ∧ (B.slice b).fState t2 = st
      · rw [if_pos ⟨h1.1, rfl, h1.2⟩, if_pos h1]
      · rw [if_neg (fun hcon => h1 ⟨hcon.1, hcon.2.2⟩), if_neg h1, add_zero]
    have hsingle : (∑ t2 ∈ Finset.range B.nblk,
          if t2 = t ∧ (B.slice b).fState t2 = st then h else 0)
        = if (B.slice b).fState t = st then h else 0 := by
      have hrw : ∀ t2 ∈ Finset.range B.nblk,
          (if t2 = t ∧ (B.slice b).fState t2 = st then h else 0)
            = if t2 = t then (if (B.slice b).fState t2 = st then h else 0)
              else 0 := by
        intro t2 _
        by_cases h1 : t2 = t <;> by_cases h2 : (B.slice b).fState t2 = st <;>
          simp [h1, h2]
      rw [Finset.sum_congr rfl hrw,
        Finset.sum_ite_eq' (Finset.range B.nblk) t
          (fun t2 => if (B.slice b).fState t2 = st then h else 0),
        if_pos (Finset.mem_range.mpr ht)]
    rw [Finset.sum_congr rfl hterm, Finset.sum_add_distrib, hsingle]
  rw [hdiff, add_sub_cancel_left]
  unfold RLElem.gradCell
  by_cases hfst : (B.slice b).fState t = st
  · rw [if_pos hfst, if_pos ⟨hF, hS, ht, hfst⟩, div_self hh]
  · rw [if_neg hfst, if_neg (fun hcon => hfst hcon.2.2.2), zero_div]

/-- Witness for C2 on the concrete batch `Bdemo`, cell `(0, 0, 0)`, step 1. -/
theorem crf_runlength_grad_finite_difference_witness :
    0 < Bdemo.nbatch ∧ 0 < Bdemo.nblk ∧ 0 < Bdemo.nstate ∧
      (Bdemo.slice 0).Fit ∧ (Bdemo.slice 0).SeqOK ∧
      ((crf_runlength_cost (Bdemo.perturb 0 0 0 1) spZero 0).toReal
          - (crf_runlength_cost Bdemo spZero 0).toReal) / 1
        = (crf_runlength_grad Bdemo spZero gpZero).2 0 0 0 :=
  ⟨by decide, by decide, by decide, by decide, by decide,
    crf_runlength_grad_finite_difference Bdemo spZero gpZero 0 0 0 1
      (by decide) (by decide) (by decide) (by decide) (by decide) one_ne_zero⟩

/-- C3: `crf_runlength_cost` and `crf_runlength_grad`, called with identical
inputs, write identical values into the score output: both entry points are
modelled as the same pure function of the inputs, with no hidden state
across calls. -/
theorem crf_runlength_grad_score_agrees_cost (B : RLBatch) (sp : ℕ → EReal)
    (gp : ℕ → ℕ → ℕ → ℝ) (b : ℕ) :
    (crf_runlength_grad B sp gp).1 b = crf_runlength_cost B sp b := rfl

/-- C4: every in-range entry of the `score` and `grad` output buffers is
fully overwritten — the outputs do not depend on the buffers' prior
contents — and the modelled kernels are pure functions that leave the
`logprob`, `seqs`, `rles` and `seqlen` inputs untouched. -/
theorem crf_runlength_outputs_overwrite (B : RLBatch)
    (sp sp2 : ℕ → EReal) (gp gp2 : ℕ → ℕ → ℕ → ℝ) (b t st : ℕ)
    (hb : b < B.nbatch) (ht : t < B.nblk) (hst : st < B.nstate) :
    crf_runlength_cost B sp b = crf_runlength_cost B sp2 b ∧
      (crf_runlength_grad B sp gp).1 b = (crf_runlength_grad B sp2 gp2).1 b ∧
      (crf_runlength_grad B sp gp).2 t b st
        = (crf_runlength_grad B sp2 gp2).2 t b st := by
  refine ⟨?_, ?_, ?_⟩
  · show (if b < B.nbatch then (B.slice b).score else sp b)
      = (if b < B.nbatch then (B.slice b).score else sp2 b)
    rw [if_pos hb, if_pos hb]
  · show (if b < B.nbatch then (B.slice b).score else sp b)
      = (if b < B.nbatch then (B.slice b).score else sp2 b)
    rw [if_pos hb, if_pos hb]
  · show (if t < B.nblk ∧ b < B.nbatch ∧ st < B.nstate
        then (B.slice b).gradCell t st else gp t b st)
      = (if t < B.nblk ∧ b < B.nbatch ∧ st < B.nstate
        then (B.slice b).gradCell t st else gp2 t b st)
    rw [if_pos ⟨ht, hb, hst⟩, if_pos ⟨ht, hb, hst⟩]

/-- Witness for C4 on `Bdemo` with two different prior buffer contents. -/
theorem crf_runlength_outputs_overwrite_witness :
    0 < Bdemo.nbatch ∧ 0 < Bdemo.nblk ∧ 0 < Bdemo.nstate ∧
      (crf_runlength_cost Bdemo spZero 0 = crf_runlength_cost Bdemo spBot 0 ∧
        (crf_runlength_grad Bdemo spZero gpZero).1 0
          = (crf_runlength_grad Bdemo spBot gpOne).1 0 ∧
        (crf_runlength_grad Bdemo spZero gpZero).2 0 0 0
          = (crf_runlength_grad Bdemo spBot gpOne).2 0 0 0) :=
  ⟨by decide, by decide, by decide,
    crf_runlength_outputs_overwrite Bdemo spZero spBot gpZero gpOne 0 0 0
      (by decide) (by decide) (by decide)⟩

/-- C5: scores are invariant to batch-element ordering — reindexing the
batch elements through `π` and reading output entry `b` yields exactly the
score the original batch produced at entry `π b`, with no
cross-contamination between elements. -/
theorem crf_runlength_cost_batch_permute (B : RLBatch) (π : ℕ → ℕ)
    (sp : ℕ → EReal) (b : ℕ) (hb : b < B.nbatch) (hpb : π b < B.nbatch) :
    crf_runlength_cost (B.permute π) sp b = crf_runlength_cost B sp (π b) := by
  show (if b < (B.permute π).nbatch then ((B.permute π).slice b).score else sp b)
    = (if π b < B.nbatch then (B.slice (π b)).score else sp (π b))
  rw [if_pos (show b < (B.permute π).nbatch from hb), if_pos hpb]
  rfl

/-- Witness for C5 on `Bdemo` with the identity reindexing. -/
theorem crf_runlength_cost_batch_permute_witness :
    0 < Bdemo.nbatch ∧
      crf_runlength_cost (Bdemo.permute id) spZero 0
        = crf_runlength_cost Bdemo spZero 0 :=
  ⟨by decide,
    crf_runlength_cost_batch_permute Bdemo id spZero 0 (by decide) (by decide)⟩

/-- C6: a batch element whose run lengths sum to more than `nblk` timesteps
cannot be aligned to the lattice, and `crf_runlength_cost` reports its
score as negative infinity rather than a finite but meaningless value. -/
theorem crf_runlength_cost_overlong_bot (B : RLBatch) (sp : ℕ → EReal)
    (b : ℕ) (hb : b < B.nbatch)
    (hover : B.nblk < (B.slice b).psum (B.slice b).L) :
    crf_runlength_cost B sp b = (⊥ : EReal) := by
  show (if b < B.nbatch then (B.slice b).score else sp b) = ⊥
  rw [if_pos hb]
  apply (B.slice b).score_eq_bot_of_invalid
  rintro ⟨hF, -⟩
  have hF2 : (B.slice b).psum (B.slice b).L = B.nblk := hF
  rw [hF2] at hover
  exact lt_irrefl _ hover

/-- Witness for C6 on the overlong batch `Bbad`. -/
theorem crf_runlength_cost_overlong_bot_witness :
    0 < Bbad.nbatch ∧ Bbad.nblk < (Bbad.slice 0).psum (Bbad.slice 0).L ∧
      crf_runlength_cost Bbad spZero 0 = (⊥ : EReal) :=
  ⟨by decide, by decide,
    crf_runlength_cost_overlong_bot Bbad spZero 0 (by decide) (by decide)⟩

/-- C7: for a single-timestep, single-state lattice with a target of one
symbol of run length 1, the score written by `crf_runlength_cost` equals
exactly the single log-probability entry of that lattice cell. -/
theorem crf_runlength_cost_single_cell (B : RLBatch) (sp : ℕ → EReal)
    (b : ℕ) (hb : b < B.nbatch) (hnb : B.nblk = 1) (hns : B.nstate = 1)
    (hlen : B.seqlen b = 1) (hsym : B.seqs b 0 = 0) (hrle : B.rles b 0 = 1) :
    crf_runlength_cost B sp b = ((B.logprob 0 b 0 : ℝ) : EReal) := by
  have hL : (B.slice b).L = 1 := by
    show (B.seqlen b).toNat = 1
    rw [hlen]
    rfl
  have hr0 : (B.slice b).r 0 = 1 := by
    show (B.rles b 0).toNat = 1
    rw [hrle]
    rfl
  have hpsum1 : (B.slice b).psum 1 = 1 := by
    rw [RLElem.psum_succ, RLElem.psum_zero, hr0]
  have hF : (B.slice b).Fit := by
    show (B.slice b).psum (B.slice b).L = (B.slice b).nblk
    rw [hL, hpsum1]
    exact hnb.symm
  have hS : (B.slice b).SeqOK := by
    intro i hi
    rw [hL] at hi
    have hi0 : i = 0 := Nat.lt_one_iff.mp hi
    subst hi0
    show 1 ≤ (B.slice b).rle 0 ∧ 0 ≤ (B.slice b).seq 0
      ∧ (B.slice b).seq 0 < ((B.slice b).nstate : ℤ)
    refine ⟨?_, ?_, ?_⟩
    · show 1 ≤ B.rles b 0
      rw [hrle]
    · show 0 ≤ B.seqs b 0
      rw [hsym]
    · show B.seqs b 0 < (B.nstate : ℤ)
      rw [hsym, hns]
      exact Int.zero_lt_one
  have hfs : (B.slice b).fState 0 = 0 := by
    have hsi : (B.slice b).symIdx 0 = 0 := by
      refine (B.slice b).symIdx_run ?_ ?_ ?_
      · rw [hL]
        exact Nat.zero_lt_one
      · rw [RLElem.psum_zero]
      · rw [hpsum1]
        exact Nat.zero_lt_one
    show (B.slice b).sym ((B.slice b).symIdx 0) = 0
    rw [hsi]
    show (B.seqs b 0).toNat = 0
    rw [hsym]
    rfl
  have hcost : crf_runlength_cost B sp b = (B.slice b).score := by
    show (if b < B.nbatch then (B.slice b).score else sp b) = _
    rw [if_pos hb]
  have hpath : (B.slice b).pathScore = B.logprob 0 b 0 := by
    show (∑ t ∈ Finset.range (B.slice b).nblk,
        (B.slice b).logprob t ((B.slice b).fState t)) = B.logprob 0 b 0
    have hnb2 : (B.slice b).nblk = 1 := hnb
    rw [hnb2, Finset.sum_range_one, hfs]
    rfl
  rw [hcost, (B.slice b).score_eq_pathScore hF hS, hpath]

/-- Witness for C7 on the single-cell batch `Bone`. -/
theorem crf_runlength_cost_single_cell_witness :
    0 < Bone.nbatch ∧ Bone.nblk = 1 ∧ Bone.nstate = 1 ∧
      Bone.seqlen 0 = 1 ∧ Bone.seqs 0 0 = 0 ∧ Bone.rles 0 0 = 1 ∧
      crf_runlength_cost Bone spZero 0 = ((Bone.logprob 0 0 0 : ℝ) : EReal) :=
  ⟨by decide, by decide, by decide, by decide, by decide, by decide,
    crf_runlength_cost_single_cell Bone spZero 0 (by decide) (by decide)
      (by decide) (by decide) (by decide) (by decide)⟩

/-- C8: every in-range (timestep, batch, state) cell that no valid
alignment of its batch element passes through receives a gradient of
exactly zero from `crf_runlength_grad`. -/
theorem crf_runlength_grad_unreachable_zero (B : RLBatch) (sp : ℕ → EReal)
    (gp : ℕ → ℕ → ℕ → ℝ) (t b st : ℕ)
    (ht : t < B.nblk) (hb : b < B.nbatch) (hst : st < B.nstate)
    (hur : ¬ (B.slice b).Reachable t st) :
    (crf_runlength_grad B sp gp).2 t b st = 0 := by
  show (if t < B.nblk ∧ b < B.nbatch ∧ st < B.nstate
      then (B.slice b).gradCell t st else gp t b st) = 0
  rw [if_pos ⟨ht, hb, hst⟩]
  have hneg : ¬ ((B.slice b).Fit ∧ (B.slice b).SeqOK ∧ t < (B.slice b).nblk
      ∧ (B.slice b).fState t = st) := by
    rintro ⟨hF, hS, ht2, hfs⟩
    exact hur ⟨fun t2 => ⟨(B.slice b).fState t2,
        (B.slice b).fState_lt hF hS t2.isLt⟩,
      (B.slice b).validAlign_of_forced hF hS _ (fun t2 => rfl), ht2, hfs⟩
  unfold RLElem.gradCell
  rw [if_neg hneg]

/-- Witness for C8 on the degenerate batch `Bbad`, whose lattice cell
`(0, 0, 0)` lies on no valid alignment. -/
theorem crf_runlength_grad_unreachable_zero_witness :
    0 < Bbad.nblk ∧ 0 < Bbad.nbatch ∧ 0 < Bbad.nstate ∧
      ¬ (Bbad.slice 0).Reachable 0 0 ∧
      (crf_runlength_grad Bbad spZero gpOne).2 0 0 0 = 0 :=
  ⟨by decide, by decide, by decide, by decide,
    crf_runlength_grad_unreachable_zero Bbad spZero gpOne 0 0 0
      (by decide) (by decide) (by decide) (by decide)⟩

/-- C9: degeneracy is local to a batch element — an element admitting no
valid alignment scores negative infinity and contributes an all-zero
gradient slice, and replacing that element's inputs by anything else (batch
`B2` agreeing with `B` on every other element) leaves every other
element's score unchanged. -/
theorem crf_runlength_degenerate_local (B B2 : RLBatch)
    (sp sp2 : ℕ → EReal) (gp : ℕ → ℕ → ℕ → ℝ) (b0 : ℕ)
    (hb0 : b0 < B.nbatch) (hnb : B2.nbatch = B.nbatch)
    (hsl : ∀ b, b ≠ b0 → B2.slice b = B.slice b)
    (hdeg : ∀ A : Fin (B.slice b0).nblk → Fin (B.slice b0).nstate,
      ¬ (B.slice b0).ValidAlign A) :
    crf_runlength_cost B sp b0 = (⊥ : EReal) ∧
      (∀ t st, t < B.nblk → st < B.nstate →
        (crf_runlength_grad B sp gp).2 t b0 st = 0) ∧
      ∀ b, b < B.nbatch → b ≠ b0 →
        crf_runlength_cost B2 sp2 b = crf_runlength_cost B sp b := by
  have hinv : ¬ ((B.slice b0).Fit ∧ (B.slice b0).SeqOK) := by
    rintro ⟨hF, hS⟩
    exact hdeg (fun t2 => ⟨(B.slice b0).fState t2,
        (B.slice b0).fState_lt hF hS t2.isLt⟩)
      ((B.slice b0).validAlign_of_forced hF hS _ (fun t2 => rfl))
  refine ⟨?_, ?_, ?_⟩
  · show (if b0 < B.nbatch then (B.slice b0).score else sp b0) = ⊥
    rw [if_pos hb0]
    exact (B.slice b0).score_eq_bot_of_invalid hinv
  · intro t st ht hst
    show (if t < B.nblk ∧ b0 < B.nbatch ∧ st < B.nstate
        then (B.slice b0).gradCell t st else gp t b0 st) = 0
    rw [if_pos ⟨ht, hb0, hst⟩]
    have hneg : ¬ ((B.slice b0).Fit ∧ (B.slice b0).SeqOK
        ∧ t < (B.slice b0).nblk ∧ (B.slice b0).fState t = st) := by
      rintro ⟨hF, hS, -⟩
      exact hinv ⟨hF, hS⟩
    unfold RLElem.gradCell
    rw [if_neg hneg]
  · intro b hblt hbne
    show (if b < B2.nbatch then (B2.slice b).score else sp2 b)
      = (if b < B.nbatch then (B.slice b).score else sp b)
    rw [if_pos (show b < B2.nbatch by rw [hnb]; exact hblt), if_pos hblt,
      hsl b hbne]

/-- Witness for C9 on the degenerate batch `Bbad` (taken as both batches,
with different prior buffer contents). -/
theorem crf_runlength_degenerate_local_witness :
    0 < Bbad.nbatch ∧
      (∀ A : Fin (Bbad.slice 0).nblk → Fin (Bbad.slice 0).nstate,
        ¬ (Bbad.slice 0).ValidAlign A) ∧
      (crf_runlength_cost Bbad spZero 0 = (⊥ : EReal) ∧
        (∀ t st, t < Bbad.nblk → st < Bbad.nstate →
          (crf_runlength_grad Bbad spZero gpOne).2 t 0 st = 0) ∧
        ∀ b, b < Bbad.nbatch → b ≠ 0 →
          crf_runlength_cost Bbad spBot b = crf_runlength_cost Bbad spZero b) :=
  ⟨by decide, by decide,
    crf_runlength_degenerate_local Bbad Bbad spZero spBot gpOne 0
      (by decide) rfl (fun b _ => rfl) (by decide)⟩

/-- C10: both declared entry points return `void` and expose no writable
parameter other than the `score` and `grad` buffers, so the declared
interface offers no status-code channel for signaling precondition
violations — any failure signal can only flow through the output buffers
or out of band. -/
theorem crf_runlength_decl_void_no_status :
    crf_runlength_cost_decl.ret = CBase.voidT ∧
      crf_runlength_grad_decl.ret = CBase.voidT ∧
      crf_runlength_cost_decl.outParams = ["score"] ∧
      crf_runlength_grad_decl.outParams = ["score", "grad"] :=
  ⟨rfl, rfl, rfl, rfl⟩

end Taiyaki
